import Mathlib

/-!
Verification of the ygg fetch pipeline (src/main.rs).

Strings are modelled as lists of characters (`Str`), response bodies as
lists of naturals (byte values). Each definition is a shallow embedding of
the corresponding Rust code; filesystem and network effects are made
explicit (cache state in, cache state out; the origin server is a function
from the optional If-None-Match validator sent to the response received).
-/

abbrev Str := List Char

/-! ### String primitives used by the source

Rust's str::replace scans left to right and replaces every non-overlapping
occurrence of a pattern. `hasLead pat s` is "s starts with pat";
`replaceFuel` performs the scan with an explicit fuel (the scan consumes at
least one character per step, so fuel equal to the string length suffices).
-/

def hasLead : Str → Str → Bool
  | [], _ => true
  | _ :: _, [] => false
  | a :: as, b :: bs => (a == b) && hasLead as bs

def replaceFuel (pat repl : Str) : Nat → Str → Str
  | 0, s => s
  | n + 1, s =>
    match s with
    | [] => []
    | c :: rest =>
      if hasLead pat (c :: rest) && !pat.isEmpty then
        repl ++ replaceFuel pat repl n (List.drop pat.length (c :: rest))
      else
        c :: replaceFuel pat repl n rest

def replaceAll (pat repl s : Str) : Str := replaceFuel pat repl s.length s

/-- The URI prefix stripped when forming a cache key (main.rs line 113). -/
def apiReposBase : Str := ("https://api.github.com/repos/").data

/-- Character-level effect of the second replace (every slash becomes an
underscore). -/
def underscoreOf (c : Char) : Char := if c = '/' then '_' else c

/-- Cache-key derivation of CacheManager::get_or_fetch (main.rs line 113):
strip the known API prefix, then replace every slash with an underscore. -/
def cacheKey (uri : Str) : Str :=
  replaceAll (['/']) (['_']) (replaceAll apiReposBase [] uri)

/-! ### Conditional cache store and resource client (CacheManager::get_or_fetch)

The on-disk entry for one cache key is the triple of the content file, the
etag file and the notfound marker (main.rs lines 114-116). The origin is a
function from the optional If-None-Match validator sent to the HTTP
response received. Filesystem write/remove calls whose results the source
discards with a let-underscore are modelled by success flags: a false flag
means that call failed and the corresponding file was left as it was.
-/

structure CacheEntry where
  content : Option (List Nat)
  etag : Option Str
  notfound : Bool
deriving DecidableEq

structure Response where
  status : Nat
  etag : Option Str
  body : List Nat

structure FsFlags where
  removeNotfoundOk : Bool
  writeContentOk : Bool
  writeEtagOk : Bool
  removeContentOk : Bool
  removeEtagOk : Bool
  createNotfoundOk : Bool
deriving DecidableEq

def fsAllOk : FsFlags := ⟨true, true, true, true, true, true⟩

/-- reqwest StatusCode::is_success: 2xx. -/
def isSuccessB (s : Nat) : Bool := decide (200 ≤ s) && decide (s < 300)

/-- Rust str::trim on the etag file contents. -/
def trimChars (s : Str) : Str :=
  ((s.dropWhile Char.isWhitespace).reverse.dropWhile Char.isWhitespace).reverse

/-- The If-None-Match validator attached to the request (main.rs lines
122-130, 138-140): present only when both the content file and the etag
file exist and the etag file trims to a non-empty string. -/
def sentEtag (entry : CacheEntry) : Option Str :=
  match entry.content, entry.etag with
  | some _, some e =>
    let t := trimChars e
    if t = [] then none else some t
  | _, _ => none

inductive FetchRes where
  | ok (bytes : List Nat)
  | errNotFound
  | errIo
  | errUnexpected (status : Nat)
deriving DecidableEq

/-- CacheManager::get_or_fetch (main.rs lines 112-173) for one key.
Returns the result, the cache entry after the call, and the network
request issued: none when no request was sent, some v when a request was
sent carrying the optional If-None-Match validator v. -/
def get_or_fetch (fsOk : FsFlags) (entry : CacheEntry) (origin : Option Str → Response) :
    FetchRes × CacheEntry × Option (Option Str) :=
  if entry.notfound then (.errNotFound, entry, none)
  else
    let etag := sentEtag entry
    let res := origin etag
    if res.status = 304 then
      match entry.content with
      | some b => (.ok b, entry, some etag)
      | none => (.errIo, entry, some etag)
    else if isSuccessB res.status then
      (.ok res.body,
       { content := if fsOk.writeContentOk then some res.body else entry.content
         etag := match res.etag with
                 | some e => if fsOk.writeEtagOk then some e else entry.etag
                 | none => entry.etag
         notfound := if fsOk.removeNotfoundOk then false else entry.notfound },
       some etag)
    else if res.status = 404 then
      (.errNotFound,
       { content := if fsOk.removeContentOk then none else entry.content
         etag := if fsOk.removeEtagOk then none else entry.etag
         notfound := if fsOk.createNotfoundOk then true else entry.notfound },
       some etag)
    else (.errUnexpected res.status, entry, some etag)

/-! ### Fetch orchestrator (main.rs lines 423-449)

stream::iter(uris).map(async fetch).buffered(PARALLEL_REQUESTS).collect()
resolves every descriptor's future and yields the results in input order,
whatever order the in-flight futures complete in. Completion order is
modelled by a schedule: a list of descriptor indices in the order their
futures finish. Each completion writes its own outcome (which depends only
on its own URI) into an index-addressed buffer; the collected output reads
the buffer back in input order. -/

def schedStep (v : Nat → Option β) (buf : Nat → Option β) (i : Nat) : Nat → Option β :=
  fun j => if j = i then v i else buf j

def runSched (v : Nat → Option β) (sched : List Nat) : Nat → Option β :=
  sched.foldl (schedStep v) (fun _ => none)

def orchestrate (v : Nat → Option β) (n : Nat) (sched : List Nat) : List (Option β) :=
  (List.range n).map (runSched v sched)

/-- Outcome of descriptor i: the per-URI fetch applied to inputs[i]. -/
def descriptorOutcome (f : α → β) (inputs : List α) (i : Nat) : Option β :=
  (inputs[i]?).map f

def orchestrateFetch (f : α → β) (inputs : List α) (sched : List Nat) :
    List (Option β) :=
  orchestrate (descriptorOutcome f inputs) inputs.length sched

/-! ### Report construction (main.rs lines 451-461)

versions.iter().enumerate().filter_map keeps only Ok results different
from the "-------" placeholder and pairs them with the repository name
part after the slash: json[i].split('/').collect()[1]. Indexing a
collected split at position 1 is not total — it panics when the entry holds
no slash — so the construction is modelled in Option, with none standing
for the panic. -/

def splitOnChar (c : Char) : Str → List Str
  | [] => [[]]
  | x :: xs =>
    if x = c then [] :: splitOnChar c xs
    else
      match splitOnChar c xs with
      | [] => [[x]]
      | y :: ys => (x :: y) :: ys

def notFoundMarker : Str := ("-------").data

/-- json[i].split('/').collect::<Vec<_>>()[1], in Option. -/
def secondComponent (s : Str) : Option Str := (splitOnChar '/' s)[1]?

/-- The filter_map of main.rs lines 451-461 over (repo, result) pairs,
propagating the indexing panic as none. -/
def found_items : List (Str × Except Nat Str) → Option (List (Str × Str))
  | [] => some []
  | (_, Except.error _) :: rest => found_items rest
  | (repo, Except.ok ver) :: rest =>
    if ver = notFoundMarker then found_items rest
    else
      match secondComponent repo with
      | none => none
      | some r => (found_items rest).map (fun l => (ver, r) :: l)

/-! ### Pagination crawler (search_repos, main.rs lines 212-277)

The network is modelled as a transcript: the k-th GET issued by the loop
receives the k-th page of the list. A page carries its HTTP status, its
optional Link header and the repository full_name of each item in its
body. Link-header parsing follows the source: split on commas, trim each
entry, take the first entry containing the substring with relation next,
and slice between the angle brackets (the loop keeps scanning when the
closing bracket is missing). The slice link[start..e] panics when the
first closing bracket of the chosen entry precedes the slice start
(start > e): parsing returns Option (Option Str), where the outer none is
that panic, some none is "no next link" and some (some u) is a cursor.
The crawl result is likewise wrapped in Option, the outer none meaning
the whole program aborts with the panic. -/

def containsSeq (pat : Str) : Str → Bool
  | [] => pat.isEmpty
  | c :: rest => hasLead pat (c :: rest) || containsSeq pat rest

def relNextPat : Str := ("rel=\"next\"").data

def extractNext : List Str → Option (Option Str)
  | [] => some none
  | l :: rest =>
    if containsSeq relNextPat l then
      match List.findIdx? (fun c => c = '>') l with
      | some e =>
        let start := match List.findIdx? (fun c => c = '<') l with
                     | some i => i + 1
                     | none => 0
        if start ≤ e then some (some ((l.drop start).take (e - start)))
        else none
      | none => extractNext rest
    else extractNext rest

def parseNextUrl : Option Str → Option (Option Str)
  | none => some none
  | some s => extractNext ((splitOnChar ',' s).map trimChars)

structure Page where
  status : Nat
  link : Option Str
  items : List Str

/-- HashSet::insert – a duplicate insertion is a no-op. -/
def insertRepo (acc : List Str) (x : Str) : List Str :=
  if x ∈ acc then acc else acc ++ [x]

def accPage (acc : List Str) (p : Page) : List Str := p.items.foldl insertRepo acc

def accumAll (acc : List Str) (pages : List Page) : List Str :=
  pages.foldl accPage acc

/-- The sorted deduplicated result the crawl returns. -/
def crawlResult (pages : List Page) : List Str :=
  List.insertionSort (fun a b => a ≤ b) (accumAll [] pages)

/-- search_repos (main.rs lines 212-277) over a response transcript: check
the status, extract the next cursor from the Link header (the outer none
propagates the slice panic, aborting the whole crawl), insert every item's
repository into the accumulated set, follow the cursor if present,
otherwise stop and return the sorted set. An exhausted transcript while a
next cursor is pending is modelled as a transport error. -/
def search_repos : List Page → List Str → Option (Except Nat (List Str))
  | [], _ => some (.error 0)
  | p :: rest, acc =>
    if isSuccessB p.status then
      match parseNextUrl p.link with
      | none => none
      | some next =>
        let acc2 := accPage acc p
        match next with
        | some _ => search_repos rest acc2
        | none => some (.ok (List.insertionSort (fun a b => a ≤ b) acc2))
    else some (.error p.status)

/-- Synthetic transcript pages used as concrete witnesses. -/
def pageOne : Page :=
  ⟨200, some (("<https://api.github.com/search/code?q=x&page=2>; rel=\"next\"").data),
    [("acme/a").data, ("acme/b").data]⟩

def pageTwo : Page :=
  ⟨200, some (("<https://api.github.com/search/code?q=x&page=3>; rel=\"next\"").data),
    [("acme/b").data, ("acme/c").data]⟩

def pageThree : Page :=
  ⟨200, some (("<https://api.github.com/search/code?q=x&page=1>; rel=\"prev\"").data),
    [("acme/a").data]⟩

def pageBad : Page := ⟨403, none, []⟩

/-! ### Theorems -/
theorem hasLead_mem : ∀ (pat s : Str), hasLead pat s = true → ∀ x, x ∈ pat → x ∈ s := by
  intro pat
  induction pat with
  | nil => intro s _ x hx; cases hx
  | cons a as ih =>
    intro s h x hx
    cases s with
    | nil => simp [hasLead] at h
    | cons b bs =>
      simp only [hasLead, Bool.and_eq_true, beq_iff_eq] at h
      rcases List.mem_cons.mp hx with rfl | hx'
      · exact h.1 ▸ List.mem_cons_self _ _
      · exact List.mem_cons_of_mem _ (ih bs h.2 x hx')

theorem hasLead_append : ∀ (pat t : Str), hasLead pat (pat ++ t) = true := by
  intro pat
  induction pat with
  | nil => intro t; rfl
  | cons a as ih => intro t; simp [hasLead, ih t]

theorem replaceFuel_of_not_mem (pat repl : Str) (x : Char) (hx : x ∈ pat) :
    ∀ (n : Nat) (s : Str), x ∉ s → replaceFuel pat repl n s = s := by
  intro n
  induction n with
  | zero => intro s _; rfl
  | succ n ih =>
    intro s hs
    cases s with
    | nil => rfl
    | cons c rest =>
      have hlead : hasLead pat (c :: rest) = false := by
        cases h : hasLead pat (c :: rest)
        · rfl
        · exact absurd (hasLead_mem pat (c :: rest) h x hx) hs
      simp only [replaceFuel, hlead, Bool.false_and, if_neg Bool.false_ne_true]
      have : x ∉ rest := fun h => hs (List.mem_cons_of_mem _ h)
      rw [ih rest this]

theorem replaceFuel_strip (c : Char) (cs t : Str) (x : Char) (hx : x ∈ c :: cs)
    (hxt : x ∉ t) (n : Nat) :
    replaceFuel (c :: cs) [] (n + 1) ((c :: cs) ++ t) = t := by
  have hlead : hasLead (c :: cs) (c :: (cs ++ t)) = true := hasLead_append (c :: cs) t
  have hdrop : List.drop (c :: cs).length (c :: (cs ++ t)) = t := by
    have h := List.drop_left (c :: cs) t
    rw [List.cons_append] at h
    exact h
  show replaceFuel (c :: cs) [] (n + 1) (c :: (cs ++ t)) = t
  simp only [replaceFuel, hlead, List.isEmpty_cons, Bool.not_false, Bool.and_self,
    if_true, List.nil_append, hdrop]
  exact replaceFuel_of_not_mem (c :: cs) [] x hx n t hxt

theorem replaceAll_strip (c : Char) (cs t : Str) (x : Char) (hx : x ∈ c :: cs)
    (hxt : x ∉ t) : replaceAll (c :: cs) [] ((c :: cs) ++ t) = t := by
  unfold replaceAll
  have hlen : ((c :: cs) ++ t).length = (cs.length + t.length) + 1 := by
    simp [List.length_append]
  rw [hlen]
  exact replaceFuel_strip c cs t x hx hxt _

theorem replaceFuel_slash (n : Nat) : ∀ (s : Str), s.length ≤ n →
    replaceFuel (['/']) (['_']) n s = s.map underscoreOf := by
  induction n with
  | zero =>
    intro s hs
    have : s = [] := List.length_eq_zero.mp (Nat.le_zero.mp hs)
    subst this; rfl
  | succ n ih =>
    intro s hs
    cases s with
    | nil => rfl
    | cons c rest =>
      have hrest : rest.length ≤ n := by
        simp only [List.length_cons] at hs; omega
      by_cases hc : c = '/'
      · subst hc
        have h1 : replaceFuel (['/']) (['_']) (n + 1) ('/' :: rest) =
            '_' :: replaceFuel (['/']) (['_']) n rest := by
          simp [replaceFuel, hasLead]
        rw [h1, ih rest hrest]
        simp [underscoreOf]
      · have hbe : (('/' : Char) == c) = false := by
          simp only [beq_eq_false_iff_ne, ne_eq]
          exact fun h => hc h.symm
        have h1 : replaceFuel (['/']) (['_']) (n + 1) (c :: rest) =
            c :: replaceFuel (['/']) (['_']) n rest := by
          simp [replaceFuel, hasLead, hbe]
        rw [h1, ih rest hrest]
        simp [underscoreOf, hc]

theorem replaceAll_slash (s : Str) : replaceAll (['/']) (['_']) s = s.map underscoreOf :=
  replaceFuel_slash s.length s le_rfl

theorem cacheKey_append (a : Str) (ha : (':') ∉ a) :
    cacheKey (apiReposBase ++ a) = a.map underscoreOf := by
  have hbase : apiReposBase = 'h' :: (("ttps://api.github.com/repos/").data) := by decide
  have hstrip : replaceAll apiReposBase [] (apiReposBase ++ a) = a := by
    rw [hbase]
    exact replaceAll_strip _ _ a (':') (by decide) ha
  unfold cacheKey
  rw [hstrip, replaceAll_slash]

theorem underscoreOf_inj (x y : Char) (hx : x ≠ '_') (hy : y ≠ '_')
    (h : underscoreOf x = underscoreOf y) : x = y := by
  by_cases hxs : x = '/'
  · by_cases hys : y = '/'
    · rw [hxs, hys]
    · exfalso
      rw [hxs] at h
      simp only [underscoreOf, if_pos rfl, if_neg hys] at h
      exact hy h.symm
  · by_cases hys : y = '/'
    · exfalso
      rw [hys] at h
      simp only [underscoreOf, if_pos rfl, if_neg hxs] at h
      exact hx h
    · simpa only [underscoreOf, if_neg hxs, if_neg hys] using h

theorem map_underscoreOf_inj : ∀ (a b : Str), ('_') ∉ a → ('_') ∉ b →
    a.map underscoreOf = b.map underscoreOf → a = b := by
  intro a
  induction a with
  | nil =>
    intro b _ _ h
    cases b with
    | nil => rfl
    | cons y ys => simp at h
  | cons x xs ih =>
    intro b ha hb h
    cases b with
    | nil => simp at h
    | cons y ys =>
      simp only [List.map_cons, List.cons.injEq] at h
      have hx : x ≠ '_' := fun hc => ha (hc ▸ List.mem_cons_self _ _)
      have hy : y ≠ '_' := fun hc => hb (hc ▸ List.mem_cons_self _ _)
      have hxs' : ('_') ∉ xs := fun hc => ha (List.mem_cons_of_mem _ hc)
      have hys' : ('_') ∉ ys := fun hc => hb (List.mem_cons_of_mem _ hc)
      rw [underscoreOf_inj x y hx hy h.1, ih ys hxs' hys' h.2]

/-- C1: the cache-key transformation (strip the repos-API prefix, then
replace every slash with an underscore) is deterministic, and it maps two
distinct URIs that differ only past the common prefix to two distinct
on-disk keys — provided the suffixes contain no underscore and no colon.
(Amended from the original claim: without that proviso the map is not
injective, see the counterexample.) -/
theorem cacheKey_deterministic_and_injective :
    (∀ u v : Str, u = v → cacheKey u = cacheKey v) ∧
    (∀ a b : Str, ('_') ∉ a → (':') ∉ a → ('_') ∉ b → (':') ∉ b →
      apiReposBase ++ a ≠ apiReposBase ++ b →
      cacheKey (apiReposBase ++ a) ≠ cacheKey (apiReposBase ++ b)) := by
  constructor
  · intro u v h; rw [h]
  · intro a b hua hca hub hcb hne
    rw [cacheKey_append a hca, cacheKey_append b hcb]
    intro heq
    exact hne (by rw [map_underscoreOf_inj a b hua hub heq])

/-- C1 witness: two concrete URIs sharing the prefix get distinct keys. -/
theorem cacheKey_deterministic_and_injective_witness :
    cacheKey (apiReposBase ++ ("acme/a").data) ≠
      cacheKey (apiReposBase ++ ("acme/b").data) :=
  cacheKey_deterministic_and_injective.2 (("acme/a").data) (("acme/b").data)
    (by decide) (by decide) (by decide) (by decide) (by decide)

/-- C1 counterexample: two distinct URIs, both carrying the common prefix,
collide because a slash and an underscore in the suffix become
indistinguishable after the replacement. -/
theorem cacheKey_collision_counterexample :
    ("https://api.github.com/repos/acme/a_b").data ≠
      ("https://api.github.com/repos/acme_a/b").data ∧
    cacheKey (("https://api.github.com/repos/acme/a_b").data) =
      cacheKey (("https://api.github.com/repos/acme_a/b").data) := by
  constructor
  · decide
  · decide

/-- C3: when the notfound marker is present, get_or_fetch returns the
not-found error without issuing any network request and leaves the entry
untouched, so every later call against the unchanged store short-circuits
the same way until the store is cleared. -/
theorem negative_cache_short_circuit (fsOk : FsFlags) (entry : CacheEntry)
    (origin : Option Str → Response) (h : entry.notfound = true) :
    get_or_fetch fsOk entry origin = (.errNotFound, entry, none) ∧
    (∀ (fsOk2 : FsFlags) (origin2 : Option Str → Response),
      get_or_fetch fsOk2 (get_or_fetch fsOk entry origin).2.1 origin2 =
        (.errNotFound, entry, none)) := by
  have h1 : get_or_fetch fsOk entry origin = (.errNotFound, entry, none) := by
    simp [get_or_fetch, h]
  refine ⟨h1, fun fsOk2 origin2 => ?_⟩
  rw [h1]
  simp [get_or_fetch, h]

/-- C3 witness. -/
theorem negative_cache_short_circuit_witness :
    get_or_fetch fsAllOk ⟨none, none, true⟩ (fun _ => ⟨200, none, [1]⟩) =
      (.errNotFound, ⟨none, none, true⟩, none) :=
  (negative_cache_short_circuit fsAllOk ⟨none, none, true⟩
    (fun _ => ⟨200, none, [1]⟩) rfl).1

/-- C4: with the filesystem cooperating, both cache-writing branches keep
at most one of the content file and the notfound marker authoritative: a
success persists the body (and the etag when the origin supplied one) and
clears the marker; a 404 writes the marker and deletes both the content
and the etag files. -/
theorem record_operations_invariant (entry : CacheEntry)
    (origin : Option Str → Response) (hn : entry.notfound = false) :
    (isSuccessB (origin (sentEtag entry)).status = true →
      (get_or_fetch fsAllOk entry origin).2.1.content =
          some (origin (sentEtag entry)).body ∧
      (get_or_fetch fsAllOk entry origin).2.1.notfound = false ∧
      (∀ e, (origin (sentEtag entry)).etag = some e →
        (get_or_fetch fsAllOk entry origin).2.1.etag = some e) ∧
      ¬((get_or_fetch fsAllOk entry origin).2.1.content.isSome = true ∧
        (get_or_fetch fsAllOk entry origin).2.1.notfound = true)) ∧
    ((origin (sentEtag entry)).status = 404 →
      (get_or_fetch fsAllOk entry origin).2.1 = ⟨none, none, true⟩ ∧
      ¬((get_or_fetch fsAllOk entry origin).2.1.content.isSome = true ∧
        (get_or_fetch fsAllOk entry origin).2.1.notfound = true)) := by
  constructor
  · intro hs
    have h304 : ¬(origin (sentEtag entry)).status = 304 := by
      intro h; rw [h] at hs; exact absurd hs (by decide)
    have hout : (get_or_fetch fsAllOk entry origin).2.1 =
        { content := some (origin (sentEtag entry)).body
          etag := match (origin (sentEtag entry)).etag with
                  | some e => some e
                  | none => entry.etag
          notfound := false } := by
      simp [get_or_fetch, hn, h304, hs, fsAllOk]
    refine ⟨by rw [hout], by rw [hout], fun e he => ?_, ?_⟩
    · rw [hout]; simp [he]
    · rw [hout]; simp
  · intro h404
    have h304 : ¬(origin (sentEtag entry)).status = 304 := by
      rw [h404]; decide
    have hs : ¬isSuccessB (origin (sentEtag entry)).status = true := by
      rw [h404]; decide
    have hout : (get_or_fetch fsAllOk entry origin).2.1 =
        ({ content := none, etag := none, notfound := true } : CacheEntry) := by
      simp [get_or_fetch, hn, h304, hs, h404, fsAllOk, isSuccessB]
    exact ⟨hout, by rw [hout]; simp⟩

/-- C4 witness: a 200 response with an etag, then a 404 response, both on a
previously negative-free entry. -/
theorem record_operations_invariant_witness :
    (get_or_fetch fsAllOk ⟨none, none, false⟩
        (fun _ => ⟨200, some (("W1").data), [9]⟩)).2.1.content = some [9] ∧
    (get_or_fetch fsAllOk ⟨none, none, false⟩
        (fun _ => ⟨200, some (("W1").data), [9]⟩)).2.1.notfound = false ∧
    (get_or_fetch fsAllOk ⟨some [3], some (("W0").data), false⟩
        (fun _ => ⟨404, none, []⟩)).2.1 = ⟨none, none, true⟩ := by
  have h1 := (record_operations_invariant ⟨none, none, false⟩
    (fun _ => ⟨200, some (("W1").data), [9]⟩) rfl).1 (by decide)
  have h2 := ((record_operations_invariant ⟨some [3], some (("W0").data), false⟩
    (fun _ => ⟨404, none, []⟩) rfl).2 (by decide)).1
  exact ⟨h1.1, h1.2.1, h2⟩

/-- C7: with cached content and a non-blank cached etag, and an origin that
answers 304 to the conditional request, get_or_fetch sends the trimmed
cached validator, returns the cached bytes, and leaves the entry exactly
as it was, so a second fetch behaves identically. -/
theorem idempotent_revalidation (b : List Nat) (e : Str)
    (origin : Option Str → Response) (ht : trimChars e ≠ [])
    (h304 : (origin (some (trimChars e))).status = 304) :
    get_or_fetch fsAllOk ⟨some b, some e, false⟩ origin =
      (.ok b, ⟨some b, some e, false⟩, some (some (trimChars e))) ∧
    get_or_fetch fsAllOk
        (get_or_fetch fsAllOk ⟨some b, some e, false⟩ origin).2.1 origin =
      (.ok b, ⟨some b, some e, false⟩, some (some (trimChars e))) := by
  have hse : sentEtag ⟨some b, some e, false⟩ = some (trimChars e) := by
    simp [sentEtag, ht]
  have h1 : get_or_fetch fsAllOk ⟨some b, some e, false⟩ origin =
      (.ok b, ⟨some b, some e, false⟩, some (some (trimChars e))) := by
    simp [get_or_fetch, hse, h304]
  exact ⟨h1, by rw [h1]; exact h1⟩

/-- C7 witness. -/
theorem idempotent_revalidation_witness :
    get_or_fetch fsAllOk ⟨some [5], some (("tag7").data), false⟩
        (fun _ => ⟨304, none, []⟩) =
      (.ok [5], ⟨some [5], some (("tag7").data), false⟩,
        some (some (("tag7").data))) := by
  have h := (idempotent_revalidation [5] (("tag7").data)
    (fun _ => ⟨304, none, []⟩) (by decide) rfl).1
  exact by
    rw [h]
    decide

/-- C8: whatever cache-file writes fail (any combination of flags), a
successful origin response still makes get_or_fetch return the freshly
fetched bytes; no cache-write failure turns the fetch into an error. -/
theorem cache_write_failure_swallowed (fsOk : FsFlags) (entry : CacheEntry)
    (origin : Option Str → Response) (hn : entry.notfound = false)
    (hs : isSuccessB (origin (sentEtag entry)).status = true) :
    (get_or_fetch fsOk entry origin).1 = .ok (origin (sentEtag entry)).body := by
  have h304 : ¬(origin (sentEtag entry)).status = 304 := by
    intro h; rw [h] at hs; exact absurd hs (by decide)
  simp [get_or_fetch, hn, h304, hs]

/-- C8 witness: all five mutating filesystem calls fail, yet the fetched
bytes are returned. -/
theorem cache_write_failure_swallowed_witness :
    (get_or_fetch ⟨false, false, false, false, false, false⟩
      ⟨none, none, false⟩ (fun _ => ⟨200, some (("E").data), [4, 2]⟩)).1 =
      .ok [4, 2] :=
  cache_write_failure_swallowed ⟨false, false, false, false, false, false⟩
    ⟨none, none, false⟩ (fun _ => ⟨200, some (("E").data), [4, 2]⟩) rfl (by decide)

/-- C9: a conditional validator is attached only when both the content and
the etag file exist; the request carries exactly sentEtag; and whenever a
conditional request is answered 304, the cached-content read succeeds and
its bytes are returned (the read cannot hit a missing file). -/
theorem conditional_validator_safety (fsOk : FsFlags) (entry : CacheEntry)
    (origin : Option Str → Response) :
    (∀ v, sentEtag entry = some v →
      entry.content.isSome = true ∧ entry.etag.isSome = true) ∧
    (entry.notfound = false →
      (get_or_fetch fsOk entry origin).2.2 = some (sentEtag entry)) ∧
    (entry.notfound = false → (origin (sentEtag entry)).status = 304 →
      ∀ v, sentEtag entry = some v →
        ∃ b, entry.content = some b ∧
          (get_or_fetch fsOk entry origin).1 = .ok b) := by
  refine ⟨fun v hv => ?_, fun hn => ?_, fun hn h304 v hv => ?_⟩
  · cases hc : entry.content with
    | none => simp [sentEtag, hc] at hv
    | some b =>
      cases he : entry.etag with
      | none => simp [sentEtag, hc, he] at hv
      | some e => simp [hc, he]
  · simp only [get_or_fetch, hn, Bool.false_eq_true, if_false]
    split
    · cases hc : entry.content <;> simp [hc]
    · split
      · rfl
      · split
        · rfl
        · rfl
  · cases hc : entry.content with
    | none => simp [sentEtag, hc] at hv
    | some b =>
      refine ⟨b, rfl, ?_⟩
      simp [get_or_fetch, hn, h304, hc]

/-- C9 witness: etag present without content never yields a conditional
request, and a conditional 304 serves the cached bytes. -/
theorem conditional_validator_safety_witness :
    ((get_or_fetch fsAllOk ⟨some [8], some (("t").data), false⟩
        (fun _ => ⟨304, none, []⟩)).2.2 =
      some (sentEtag ⟨some [8], some (("t").data), false⟩)) ∧
    (∃ b, (⟨some [8], some (("t").data), false⟩ : CacheEntry).content = some b ∧
      (get_or_fetch fsAllOk ⟨some [8], some (("t").data), false⟩
        (fun _ => ⟨304, none, []⟩)).1 = .ok b) := by
  refine ⟨(conditional_validator_safety fsAllOk _ _).2.1 rfl, ?_⟩
  exact (conditional_validator_safety fsAllOk ⟨some [8], some (("t").data), false⟩
    (fun _ => ⟨304, none, []⟩)).2.2 rfl (by decide) (("t").data) (by decide)

theorem foldl_schedStep (v : Nat → Option β) :
    ∀ (sched : List Nat) (buf : Nat → Option β) (j : Nat),
      (sched.foldl (schedStep v) buf) j = if j ∈ sched then v j else buf j := by
  intro sched
  induction sched with
  | nil => intro buf j; simp
  | cons i rest ih =>
    intro buf j
    rw [List.foldl_cons, ih (schedStep v buf i) j]
    by_cases hr : j ∈ rest
    · simp [hr, List.mem_cons]
    · by_cases hij : j = i
      · subst hij
        simp [hr, schedStep, List.mem_cons]
      · simp [hr, hij, schedStep, List.mem_cons]

theorem runSched_mem (v : Nat → Option β) (sched : List Nat) (j : Nat)
    (h : j ∈ sched) : runSched v sched j = v j := by
  unfold runSched
  rw [foldl_schedStep v sched _ j, if_pos h]

theorem orchestrate_getElem (v : Nat → Option β) (n : Nat) (sched : List Nat)
    (i : Nat) (hi : i < n) (hmem : i ∈ sched) :
    (orchestrate v n sched)[i]? = some (v i) := by
  unfold orchestrate
  rw [List.getElem?_map, List.getElem?_range hi]
  simp [runSched_mem v sched i hmem]

/-- C2: for every input list and every completion schedule that resolves
each descriptor, the orchestrator's output has the same length as the
input and slot i holds the outcome of fetching inputs[i], regardless of
the order in which the concurrent fetches complete. -/
theorem orchestrator_preserves_order (f : α → β) (inputs : List α)
    (sched : List Nat) (hs : ∀ i, i < inputs.length → i ∈ sched) :
    (orchestrateFetch f inputs sched).length = inputs.length ∧
    ∀ i (hi : i < inputs.length),
      (orchestrateFetch f inputs sched)[i]? =
        some (some (f (inputs.get ⟨i, hi⟩))) := by
  constructor
  · simp [orchestrateFetch, orchestrate]
  · intro i hi
    rw [orchestrateFetch, orchestrate_getElem _ _ _ i hi (hs i hi)]
    simp [descriptorOutcome, List.getElem?_eq_getElem hi]

/-- C2 witness: three inputs completing in the order 2, 0, 1 still produce
the outputs in input order. -/
theorem orchestrator_preserves_order_witness :
    (orchestrateFetch Nat.succ [10, 20, 30] [2, 0, 1]).length = 3 ∧
    (orchestrateFetch Nat.succ [10, 20, 30] [2, 0, 1])[1]? = some (some 21) := by
  have h := orchestrator_preserves_order Nat.succ [10, 20, 30] [2, 0, 1] (by decide)
  exact ⟨h.1, h.2 1 (by decide)⟩

theorem splitOnChar_ne_nil (c : Char) : ∀ (s : Str), splitOnChar c s ≠ [] := by
  intro s
  induction s with
  | nil => simp [splitOnChar]
  | cons x xs ih =>
    by_cases hx : x = c
    · simp [splitOnChar, hx]
    · simp only [splitOnChar, if_neg hx]
      cases h : splitOnChar c xs with
      | nil => simp
      | cons y ys => simp

theorem splitOnChar_length_ge_two (c : Char) : ∀ (s : Str), c ∈ s →
    2 ≤ (splitOnChar c s).length := by
  intro s
  induction s with
  | nil => intro h; cases h
  | cons x xs ih =>
    intro hmem
    by_cases hx : x = c
    · simp only [splitOnChar, if_pos hx, List.length_cons]
      have h1 : 1 ≤ (splitOnChar c xs).length := by
        cases h : splitOnChar c xs with
        | nil => exact absurd h (splitOnChar_ne_nil c xs)
        | cons y ys => simp
      omega
    · have hxs : c ∈ xs := by
        rcases List.mem_cons.mp hmem with h | h
        · exact absurd h.symm hx
        · exact h
      have h2 := ih hxs
      simp only [splitOnChar, if_neg hx]
      cases h : splitOnChar c xs with
      | nil => exact absurd h (splitOnChar_ne_nil c xs)
      | cons y ys =>
        rw [h] at h2
        simpa using h2

theorem secondComponent_isSome (s : Str) (h : ('/') ∈ s) :
    (secondComponent s).isSome = true := by
  unfold secondComponent
  have h2 : 1 < (splitOnChar '/' s).length := splitOnChar_length_ge_two '/' s h
  rw [List.getElem?_eq_getElem h2]
  rfl

/-- C10: the report construction indexes the part of the repository entry
after the slash; on an entry with no slash and a successful non-placeholder
result it panics (modelled: none), and it is total as soon as every entry
carries at least one slash. -/
theorem report_split_indexing :
    found_items [(("acmea").data, Except.ok (("found").data))] = none ∧
    ∀ l : List (Str × Except Nat Str), (∀ p ∈ l, ('/') ∈ p.1) →
      (found_items l).isSome = true := by
  constructor
  · decide
  · intro l
    induction l with
    | nil => intro _; rfl
    | cons p rest ih =>
      intro hall
      have hrest : (found_items rest).isSome = true :=
        ih fun q hq => hall q (List.mem_cons_of_mem _ hq)
      obtain ⟨repo, v⟩ := p
      cases v with
      | error e => simpa [found_items] using hrest
      | ok ver =>
        by_cases hv : ver = notFoundMarker
        · simpa [found_items, hv] using hrest
        · have hs : (secondComponent repo).isSome = true :=
            secondComponent_isSome repo (hall (repo, Except.ok ver) (List.mem_cons_self _ _))
          cases hsc : secondComponent repo with
          | none => rw [hsc] at hs; cases hs
          | some r =>
            simp only [found_items, if_neg hv, hsc]
            cases hfi : found_items rest with
            | none => rw [hfi] at hrest; cases hrest
            | some items => simp

/-- C10 witness: a list whose entries all carry a slash builds a report. -/
theorem report_split_indexing_witness :
    (found_items [(("acme/a").data, Except.ok (("1.3.0").data)),
      (("acme/b").data, Except.error 404)]).isSome = true :=
  report_split_indexing.2
    [(("acme/a").data, Except.ok (("1.3.0").data)),
      (("acme/b").data, Except.error 404)] (by decide)

/-- C5 counterexample: a batch whose single descriptor fails produces the
empty report — the failed descriptor does not surface in the final report
as a placeholder marker (nor in any other form); it is filtered out by the
Ok-pattern of the filter_map. -/
theorem failed_descriptor_report_counterexample :
    found_items [(("acme/a").data, (Except.error 500 : Except Nat Str))] =
      some [] := by
  decide

/-- C5 (amended): a failing descriptor's error is captured in its own
slot — every other descriptor still resolves to its own outcome and the
batch keeps its full length (no early abort) — and the report construction
skips failed descriptors (omitting them from the final report) instead of
aborting the report. -/
theorem per_descriptor_failure_isolated :
    (∀ (v : Nat → Option (Except Nat Str)) (n : Nat) (sched : List Nat)
      (err i j : Nat), j ≠ i → j < n → (∀ k, k < n → k ∈ sched) →
      (orchestrate (Function.update v i (some (Except.error err))) n sched)[j]? =
          some (v j) ∧
      (orchestrate (Function.update v i (some (Except.error err))) n sched).length
          = n) ∧
    (∀ (repo : Str) (err : Nat) (rest : List (Str × Except Nat Str)),
      found_items ((repo, Except.error err) :: rest) = found_items rest) := by
  constructor
  · intro v n sched err i j hji hj hs
    constructor
    · rw [orchestrate_getElem _ n sched j hj (hs j hj)]
      simp [Function.update, hji]
    · simp [orchestrate]
  · intro repo err rest
    rfl

/-- C5 witness: descriptor 0 fails, descriptor 1 still resolves to its own
outcome in a two-element batch. -/
theorem per_descriptor_failure_isolated_witness :
    (orchestrate (Function.update
        (fun _ => some (Except.ok (("x").data) : Except Nat Str)) 0
        (some (Except.error 500))) 2 [1, 0])[1]? =
      some (some (Except.ok (("x").data))) ∧
    found_items [(("acme/a").data, Except.error 500)] =
      found_items ([] : List (Str × Except Nat Str)) := by
  have h := per_descriptor_failure_isolated
  exact ⟨(h.1 (fun _ => some (Except.ok (("x").data))) 2 [1, 0] 500 0 1
    (by decide) (by decide) (by decide)).1,
    h.2 (("acme/a").data) 500 []⟩

theorem mem_insertRepo (acc : List Str) (x y : Str) :
    y ∈ insertRepo acc x ↔ y ∈ acc ∨ y = x := by
  unfold insertRepo
  by_cases h : x ∈ acc
  · simp only [if_pos h]
    constructor
    · exact Or.inl
    · rintro (hy | rfl)
      · exact hy
      · exact h
  · simp [if_neg h]

theorem nodup_insertRepo (acc : List Str) (x : Str) (h : acc.Nodup) :
    (insertRepo acc x).Nodup := by
  unfold insertRepo
  by_cases hx : x ∈ acc
  · simpa [if_pos hx] using h
  · simp [if_neg hx, List.nodup_append, h, hx]

theorem mem_accPage (p : Page) : ∀ (acc : List Str) (y : Str),
    y ∈ accPage acc p ↔ y ∈ acc ∨ y ∈ p.items := by
  unfold accPage
  generalize p.items = items
  induction items with
  | nil => intro acc y; simp
  | cons x xs ih =>
    intro acc y
    rw [List.foldl_cons, ih (insertRepo acc x) y, mem_insertRepo]
    constructor
    · rintro ((hy | rfl) | hy)
      · exact Or.inl hy
      · exact Or.inr (List.mem_cons_self _ _)
      · exact Or.inr (List.mem_cons_of_mem _ hy)
    · rintro (hy | hy)
      · exact Or.inl (Or.inl hy)
      · rcases List.mem_cons.mp hy with rfl | hy'
        · exact Or.inl (Or.inr rfl)
        · exact Or.inr hy'

theorem nodup_accPage (p : Page) : ∀ (acc : List Str), acc.Nodup →
    (accPage acc p).Nodup := by
  unfold accPage
  generalize p.items = items
  induction items with
  | nil => intro acc h; exact h
  | cons x xs ih =>
    intro acc h
    rw [List.foldl_cons]
    exact ih (insertRepo acc x) (nodup_insertRepo acc x h)

theorem mem_accumAll : ∀ (pages : List Page) (acc : List Str) (y : Str),
    y ∈ accumAll acc pages ↔ y ∈ acc ∨ ∃ p, p ∈ pages ∧ y ∈ p.items := by
  intro pages
  induction pages with
  | nil => intro acc y; simp [accumAll]
  | cons p ps ih =>
    intro acc y
    unfold accumAll at ih ⊢
    rw [List.foldl_cons, ih (accPage acc p) y, mem_accPage]
    constructor
    · rintro ((hy | hy) | ⟨q, hq, hyq⟩)
      · exact Or.inl hy
      · exact Or.inr ⟨p, List.mem_cons_self _ _, hy⟩
      · exact Or.inr ⟨q, List.mem_cons_of_mem _ hq, hyq⟩
    · rintro (hy | ⟨q, hq, hyq⟩)
      · exact Or.inl (Or.inl hy)
      · rcases List.mem_cons.mp hq with rfl | hq'
        · exact Or.inl (Or.inr hyq)
        · exact Or.inr ⟨q, hq', hyq⟩

theorem nodup_accumAll : ∀ (pages : List Page) (acc : List Str), acc.Nodup →
    (accumAll acc pages).Nodup := by
  intro pages
  induction pages with
  | nil => intro acc h; exact h
  | cons p ps ih =>
    intro acc h
    unfold accumAll
    rw [List.foldl_cons]
    exact ih (accPage acc p) (nodup_accPage p acc h)

theorem search_repos_ok : ∀ (ps : List Page) (q : Page) (junk : List Page)
    (acc : List Str),
    (∀ p, p ∈ ps → isSuccessB p.status = true ∧
      (parseNextUrl p.link).join.isSome = true) →
    isSuccessB q.status = true → parseNextUrl q.link = some none →
    search_repos (ps ++ q :: junk) acc =
      some (.ok (List.insertionSort (fun a b => a ≤ b) (accumAll acc (ps ++ [q])))) := by
  intro ps
  induction ps with
  | nil =>
    intro q junk acc _ hq hqn
    simp only [List.nil_append, search_repos, if_pos hq, hqn]
    rfl
  | cons p ps ih =>
    intro q junk acc hps hq hqn
    have hp := hps p (List.mem_cons_self _ _)
    have hps' : ∀ r, r ∈ ps → isSuccessB r.status = true ∧
        (parseNextUrl r.link).join.isSome = true :=
      fun r hr => hps r (List.mem_cons_of_mem _ hr)
    cases hn : parseNextUrl p.link with
    | none => rw [hn] at hp; simp [Option.join] at hp
    | some next =>
      cases next with
      | none => rw [hn] at hp; simp [Option.join] at hp
      | some u =>
        simp only [List.cons_append, search_repos, if_pos hp.1, hn]
        show search_repos (ps ++ q :: junk) (accPage acc p) =
          some (Except.ok (List.insertionSort (fun a b => a ≤ b)
            (accumAll (accPage acc p) (ps ++ [q]))))
        exact ih q junk (accPage acc p) hps' hq hqn

theorem search_repos_err : ∀ (ps : List Page) (p : Page) (rest : List Page)
    (acc : List Str),
    (∀ r, r ∈ ps → isSuccessB r.status = true ∧
      (parseNextUrl r.link).join.isSome = true) →
    isSuccessB p.status = false →
    search_repos (ps ++ p :: rest) acc = some (.error p.status) := by
  intro ps
  induction ps with
  | nil =>
    intro p rest acc _ hp
    simp [search_repos, hp]
  | cons r ps ih =>
    intro p rest acc hps hp
    have hr := hps r (List.mem_cons_self _ _)
    have hps' : ∀ s, s ∈ ps → isSuccessB s.status = true ∧
        (parseNextUrl s.link).join.isSome = true :=
      fun s hs => hps s (List.mem_cons_of_mem _ hs)
    cases hn : parseNextUrl r.link with
    | none => rw [hn] at hr; simp [Option.join] at hr
    | some next =>
      cases next with
      | none => rw [hn] at hr; simp [Option.join] at hr
      | some u =>
        simp only [List.cons_append, search_repos, if_pos hr.1, hn]
        exact ih p rest (accPage acc r) hps' hp

/-- C6: a transcript whose pages all parse without the slice panic and
whose last page is successful and carries no Link entry with relation
next makes the crawl stop at that page (any pages beyond it are never
requested) and return the accumulated set, sorted and with each
repository exactly once however many pages it occurred on; and if any
page before termination has a non-success status, the whole crawl fails
with that status. -/
theorem search_repos_pagination :
    (∀ (ps : List Page) (q : Page) (junk : List Page),
      (∀ p, p ∈ ps → isSuccessB p.status = true ∧
        (parseNextUrl p.link).join.isSome = true) →
      isSuccessB q.status = true → parseNextUrl q.link = some none →
      search_repos (ps ++ q :: junk) [] = some (.ok (crawlResult (ps ++ [q]))) ∧
      (crawlResult (ps ++ [q])).Nodup ∧
      List.Sorted (fun a b : Str => a ≤ b) (crawlResult (ps ++ [q])) ∧
      (∀ x, x ∈ crawlResult (ps ++ [q]) ↔ ∃ p, p ∈ ps ++ [q] ∧ x ∈ p.items)) ∧
    (∀ (ps : List Page) (p : Page) (rest : List Page),
      (∀ r, r ∈ ps → isSuccessB r.status = true ∧
        (parseNextUrl r.link).join.isSome = true) →
      isSuccessB p.status = false →
      search_repos (ps ++ p :: rest) [] = some (.error p.status)) := by
  constructor
  · intro ps q junk hps hq hqn
    refine ⟨search_repos_ok ps q junk [] hps hq hqn, ?_, ?_, ?_⟩
    · exact ((List.perm_insertionSort _ _).nodup_iff).mpr
        (nodup_accumAll _ [] List.nodup_nil)
    · exact List.sorted_insertionSort _ _
    · intro x
      rw [crawlResult, (List.perm_insertionSort _ _).mem_iff, mem_accumAll]
      simp
  · intro ps p rest hps hp
    exact search_repos_err ps p rest [] hps hp

/-- C6 witness: a 3-page transcript where pages one and two share a
duplicate repository and page three carries no next link; plus a variant
where the second request is answered 403. -/
theorem search_repos_pagination_witness :
    search_repos [pageOne, pageTwo, pageThree] [] =
      some (.ok (crawlResult [pageOne, pageTwo, pageThree])) ∧
    (crawlResult [pageOne, pageTwo, pageThree]).Nodup ∧
    search_repos [pageOne, pageBad, pageThree] [] = some (.error 403) := by
  have hA := search_repos_pagination.1 [pageOne, pageTwo] pageThree []
    (by decide) (by decide) (by decide)
  have hB := search_repos_pagination.2 [pageOne] pageBad [pageThree]
    (by decide) (by decide)
  exact ⟨hA.1, hA.2.1, hB⟩
